import Mathlib

/-!
Verification of the TT-einsum fusion compiler (`ttax/compile.py`,
`ttax/base_class.py`, `ttax/ops.py`).

The Python code is shallowly embedded: label strings become `List Char`,
`tt_einsum` dictionaries become the `TTEinsum` structure, Python dicts
become association lists with prepend-insert (so a later insert shadows an
earlier one, as in a Python dict), numeric arrays become row-major
`Tensor` values over `Int`, and every fallible operation returns
`Except Err`.  Since `_fuse` updates `arg.tt_einsum` through
`apply_mapping` (which rewrites the dictionary it is handed), the
embedding of `_fuse` also returns the post-call states of the operands,
so that statements about mutation can be made.
-/

namespace TTAX

/-- One index-label group, e.g. the string "ac" in a tt-einsum core. -/
abbrev Group := List Char

/-- One tt-einsum core: a list of label groups (left rank, dims, right rank). -/
abbrev EinCore := List Group

/-- The `tt_einsum` dictionary: `{'type': ..., 'args': [...], 'res': ...}`. -/
structure TTEinsum where
  type : String
  args : List EinCore
  res : EinCore
deriving DecidableEq, Repr

/-- `string.ascii_lowercase`. -/
def asciiLowercase : List Char :=
  ['a','b','c','d','e','f','g','h','i','j','k','l','m',
   'n','o','p','q','r','s','t','u','v','w','x','y','z']

/-- `''.join(arg)`: concatenate the label groups of one core. -/
def coreJoin (c : EinCore) : List Char := c.foldr (fun g acc => g ++ acc) []

/-- `tt_to_vanilla_einsum`: `','.join('...' + a for a in args) + '->...' + ''.join(res)`. -/
def ttToVanillaEinsum (t : TTEinsum) : List Char :=
  (List.intercalate [','] (t.args.map (fun c => ['.','.','.'] ++ coreJoin c)))
    ++ ['-','>','.','.','.'] ++ coreJoin t.res

/-- A Python dict from labels to label strings, as an association list.
Insertion prepends, lookup takes the first match, so a repeated insert
shadows the earlier binding exactly as a dict overwrite does. -/
abbrev Mapping := List (Char × Group)

/-- First-match association lookup (dict access). -/
def mapFind : Mapping → Char → Option Group
  | [], _ => none
  | (k, v) :: m, l => if k = l then some v else mapFind m l

/-- `mapping.get(l, l)`. -/
def mapGet (m : Mapping) (l : Char) : Group := (mapFind m l).getD [l]

/-- `apply_single_mapping`: rewrite every label of every group. -/
def applySingleMapping (strs : List Group) (m : Mapping) : List Group :=
  strs.map (fun g => g.foldr (fun l acc => mapGet m l ++ acc) [])

/-- `apply_mapping`: rewrite all arg cores and the res core. -/
def ttApplyMapping (t : TTEinsum) (m : Mapping) : TTEinsum :=
  { t with args := t.args.map (fun a => applySingleMapping a m),
           res := applySingleMapping t.res m }

/-- Errors of the compiler, one per Python exception site:
`assertFailed` for the `assert` in `_fuse`, `valueError` for the bare
`raise ValueError()` in `_fuse`, `indexError` for list indexing out of
range, `typeError` for `new_args += None`, `backendArity` and
`backendShape` for the errors the einsum backend raises. -/
inductive Err where
  | assertFailed
  | valueError
  | indexError
  | typeError
  | backendArity
  | backendShape
deriving DecidableEq, Repr

/-- A dense row-major tensor with explicit dimensions. -/
structure Tensor where
  dims : List Nat
  data : List Int
deriving DecidableEq, Repr

/-- The TT container: an ordered chain of cores. -/
structure TT where
  tt_cores : List Tensor
deriving DecidableEq, Repr

/-- A call-time operand: either a plain `TT` or a `WrappedTT` (which is a
leaf when `tt_einsum` is `none`, a provenance node when it is `some`). -/
inductive Operand where
  | plain (t : TT)
  | wrapped (tt : TT) (inputs : Option (List Operand)) (tt_einsum : Option TTEinsum)

/-- `isinstance(arg, WrappedTT)`. -/
def Operand.isWrapped : Operand → Bool
  | .plain _ => false
  | .wrapped _ _ _ => true

/-- A true leaf: a plain `TT`, or a `WrappedTT` with no producing descriptor. -/
def Operand.isLeaf : Operand → Bool
  | .plain _ => true
  | .wrapped _ _ none => true
  | .wrapped _ _ (some _) => false

/-- The underlying `TT` chain of an operand. -/
def Operand.theTT : Operand → TT
  | .plain t => t
  | .wrapped t _ _ => t

/-- `tt_cores` of an operand (`WrappedTT` delegates to the wrapped `TT`). -/
def Operand.cores (o : Operand) : List Tensor := o.theTT.tt_cores

/-- The recorded producing descriptor of an operand, if any. -/
def Operand.producer : Operand → Option TTEinsum
  | .plain _ => none
  | .wrapped _ _ e => e

/-- The recorded inputs of an operand, if any. -/
def Operand.recInputs : Operand → Option (List Operand)
  | .plain _ => none
  | .wrapped _ i _ => i

/-- Build the first `_fuse` mapping: `mapping[l] = vacant_letters[i]` for
`i, l in enumerate(curr_unique_letters)`, a later binding shadowing an
earlier one. -/
def relabelGo (v : List Char) : List Char → Nat → Mapping → Mapping
  | [], _, m => m
  | l :: ls, i, m => relabelGo v ls (i + 1) ((l, [v.getD i 'a']) :: m)

/-- The letters of the inner einsum string, with multiplicity, in order
(`curr_unique_letters` in the source). -/
def currLetters (inner : TTEinsum) : List Char :=
  (ttToVanillaEinsum inner).filter (fun l => decide (l ∈ asciiLowercase))

/-- The vacant letters relative to an outer einsum string. -/
def vacantLetters (outerEinsum : List Char) : List Char :=
  asciiLowercase.filter (fun l => decide (l ∉ outerEinsum))

/-- The relabeling step of `_fuse` for one inlined operand: compute the
vacant letters of the outer einsum string and map every letter occurrence
of the inner einsum string to the vacant letter at its position
(`IndexError` when the vacant letters run out). -/
def relabelOf (outerEinsum : List Char) (inner : TTEinsum) : Except Err Mapping :=
  if (currLetters inner).length ≤ (vacantLetters outerEinsum).length then
    .ok (relabelGo (vacantLetters outerEinsum) (currLetters inner) 0 [])
  else .error .indexError

/-- Step 3 of fusion, one zipped group pair: a single-label source maps to
the whole target group, equal lengths map positionally, anything else is
the bare `raise ValueError()`. -/
def spliceGo : List (Group × Group) → Mapping → Except Err Mapping
  | [], m => .ok m
  | (fr, dst) :: ps, m =>
    if fr.length = 1 then spliceGo ps ((fr.headD 'a', dst) :: m)
    else if fr.length = dst.length then
      spliceGo ps ((fr.zip dst).foldl (fun m' q => (q.1, [q.2]) :: m') m)
    else .error .valueError

/-- The second mapping of `_fuse`: built from
`zip(tt_einsum['args'][arg_idx], new_curr_tt_einsum['res'])`. -/
def buildSpliceMapping (frs tos : List Group) : Except Err Mapping :=
  spliceGo (frs.zip tos) []

/-- The evolving state of `_fuse`'s loop: the deep-copied outer
`tt_einsum['args']` (reassigned on every inlining), the evolving
`new_tt_einsum['res']`, the accumulated `new_tt_einsum['args']` and
`new_args`, the post-call states of the consumed operands, and for each
inlined operand the relabeled inner descriptor's args and res. -/
structure FuseAcc where
  ttArgs : List EinCore
  res : EinCore
  newCores : List EinCore
  flatOps : List Operand
  postOps : List Operand
  blocks : List (List EinCore × EinCore)
  otherCores : List EinCore

/-- The leaf branch of `_fuse`'s loop:
`new_tt_einsum['args'].append(tt_einsum['args'][arg_idx]); new_args.append(arg)`. -/
def fuseStepLeaf (acc : FuseAcc) (idx : Nat) (arg : Operand) : Except Err FuseAcc :=
  match acc.ttArgs.get? idx with
  | none => .error .indexError
  | some c => .ok { acc with newCores := acc.newCores ++ [c],
                             flatOps := acc.flatOps ++ [arg],
                             postOps := acc.postOps ++ [arg],
                             otherCores := acc.otherCores ++ [c] }

/-- The inlining branch of `_fuse`'s loop for an operand carrying a
producing descriptor.  Note that the vacant letters are computed from the
deep-copied outer descriptor, whose `args` have been reassigned on earlier
inlinings but whose `res` is the original one, and that `apply_mapping`
rewrites `arg.tt_einsum` itself, which the post-state records. -/
def fuseStepNode (origRes : EinCore) (acc : FuseAcc) (idx : Nat)
    (tt : TT) (inputs : Option (List Operand)) (inner : TTEinsum) :
    Except Err FuseAcc :=
  if inner.type = "independent" then
    let outerEinsum := ttToVanillaEinsum { type := "", args := acc.ttArgs, res := origRes }
    match relabelOf outerEinsum inner with
    | .error e => .error e
    | .ok m =>
      let innerRel := ttApplyMapping inner m
      match acc.ttArgs.get? idx with
      | none => .error .indexError
      | some outerArgK =>
        match buildSpliceMapping outerArgK innerRel.res with
        | .error e => .error e
        | .ok m2 =>
          let mapped := ttApplyMapping { type := "", args := acc.ttArgs, res := acc.res } m2
          match inputs with
          | none => .error .typeError
          | some ins =>
            .ok { ttArgs := mapped.args, res := mapped.res,
                  newCores := acc.newCores ++ innerRel.args,
                  flatOps := acc.flatOps ++ ins,
                  postOps := acc.postOps ++ [.wrapped tt inputs (some innerRel)],
                  blocks := acc.blocks ++ [(innerRel.args, innerRel.res)],
                  otherCores := acc.otherCores }
  else .error .assertFailed

/-- The loop of `_fuse` over the call operands. -/
def fuseGo (origRes : EinCore) : List Operand → Nat → FuseAcc → Except Err FuseAcc
  | [], _, acc => .ok acc
  | a :: rest, idx, acc =>
    match (match a with
           | .wrapped tt ins (some inner) => fuseStepNode origRes acc idx tt ins inner
           | _ => fuseStepLeaf acc idx a) with
    | .error e => .error e
    | .ok acc' => fuseGo origRes rest (idx + 1) acc'

/-- The full result of `_fuse`: the combined descriptor, the flattened
operands, the post-call states of the call operands, and the relabeled
blocks of the inlined operands. -/
structure FuseResult where
  combined : TTEinsum
  flatOps : List Operand
  postOps : List Operand
  blocks : List (List EinCore × EinCore)
  otherCores : List EinCore

/-- `_fuse`, with the post-call operand states and inlined blocks exposed.
The returned descriptor's `args` are `new_tt_einsum['args']` plus the
trailing template cores `tt_einsum['args'][len(args):]`. -/
def fuseFull (tte : TTEinsum) (args : List Operand) : Except Err FuseResult :=
  match fuseGo tte.res args 0
      { ttArgs := tte.args, res := tte.res, newCores := [],
        flatOps := [], postOps := [], blocks := [], otherCores := [] } with
  | .error e => .error e
  | .ok acc =>
    .ok { combined := { type := tte.type,
                        args := acc.newCores ++ acc.ttArgs.drop args.length,
                        res := acc.res },
          flatOps := acc.flatOps, postOps := acc.postOps, blocks := acc.blocks,
          otherCores := acc.otherCores ++ acc.ttArgs.drop args.length }

/-- `_fuse` as the source returns it: `(new_tt_einsum, new_args)`. -/
def _fuse (tte : TTEinsum) (args : List Operand) : Except Err (TTEinsum × List Operand) :=
  match fuseFull tte args with
  | .error e => .error e
  | .ok r => .ok (r.combined, r.flatOps)

/-- The all-zero tensor used as the default of head accesses. -/
def defaultTensor : Tensor := { dims := [], data := [] }

/-- `TT.num_batch_dims = len(tt_cores[0].shape) - 3`. -/
def TT.num_batch_dims (t : TT) : Nat := (t.tt_cores.headD defaultTensor).dims.length - 3

/-- `TT.axis_dim = num_batch_dims + 1`. -/
def TT.axis_dim (t : TT) : Nat := t.num_batch_dims + 1

/-- `TT.batch_shape = tt_cores[0].shape[:num_batch_dims]`. -/
def TT.batch_shape (t : TT) : List Nat :=
  (t.tt_cores.headD defaultTensor).dims.take t.num_batch_dims

/-- `TT.shape`: batch shape followed by the core dimension of every core. -/
def TT.shape (t : TT) : List Nat :=
  t.batch_shape ++ t.tt_cores.map (fun c => c.dims.getD t.axis_dim 0)

/-- `tt_cores` of an operand: a `WrappedTT` delegates to the wrapped `TT`. -/
def Operand.tt_cores (o : Operand) : List Tensor := o.theTT.tt_cores

/-- `num_batch_dims` of an operand. -/
def Operand.num_batch_dims (o : Operand) : Nat := o.theTT.num_batch_dims

/-- `batch_shape` of an operand. -/
def Operand.batch_shape (o : Operand) : List Nat := o.theTT.batch_shape

/-- `axis_dim` of an operand. -/
def Operand.axis_dim (o : Operand) : Nat := o.theTT.axis_dim

/-- `shape` of an operand. -/
def Operand.shape (o : Operand) : List Nat := o.theTT.shape

/-- Label sizes / label assignments: an association list from labels to numbers. -/
abbrev LEnv := List (Char × Nat)

/-- First-match lookup in a label environment. -/
def natFind : LEnv → Char → Option Nat
  | [], _ => none
  | (k, v) :: m, l => if k = l then some v else natFind m l

/-- Lookup with default 0. -/
def envGet (e : LEnv) (l : Char) : Nat := (natFind e l).getD 0

/-- Record one label's axis size, rejecting an inconsistent repeat
(the backend's shape error). -/
def sizesInsert (s : LEnv) (l : Char) (n : Nat) : Except Err LEnv :=
  match natFind s l with
  | none => .ok ((l, n) :: s)
  | some n' => if n' = n then .ok s else .error .backendShape

/-- Record the sizes of one operand's axes; its label count must match its rank. -/
def addOperandSizes : List Char → List Nat → LEnv → Except Err LEnv
  | [], [], s => .ok s
  | l :: ls, d :: ds, s =>
    match sizesInsert s l d with
    | .error e => .error e
    | .ok s' => addOperandSizes ls ds s'
  | _, _, _ => .error .backendShape

/-- Collect the sizes of all labels from all operands; the operand count
must match the einsum's arity (the backend's arity error). -/
def buildSizes : List (List Char) → List Tensor → LEnv → Except Err LEnv
  | [], [], s => .ok s
  | ls :: lss, t :: ts, s =>
    match addOperandSizes ls t.dims s with
    | .error e => .error e
    | .ok s' => buildSizes lss ts s'
  | _, _, _ => .error .backendArity

/-- Row-major flat position of a multi-index. -/
def flatPos (dims idx : List Nat) : Nat :=
  (dims.zip idx).foldl (fun acc p => acc * p.1 + p.2) 0

/-- Entry of a tensor at a multi-index. -/
def tensorGet (t : Tensor) (idx : List Nat) : Int := t.data.getD (flatPos t.dims idx) 0

/-- All assignments of the given labels, row-major (first label slowest). -/
def enumEnvs (s : LEnv) : List Char → List LEnv
  | [] => [[]]
  | l :: ls => (List.range (envGet s l)).flatMap
      (fun v => (enumEnvs s ls).map (fun e => (l, v) :: e))

/-- First-occurrence deduplication of a label list. -/
def dedupF (ls : List Char) : List Char :=
  ls.foldl (fun acc l => if l ∈ acc then acc else acc ++ [l]) []

/-- The value of one einsum term: the product over the operands of the
entry selected by the assignment. -/
def einsumTerm (argLs : List (List Char)) (ops : List Tensor) (env : LEnv) : Int :=
  (argLs.zip ops).foldl (fun acc p => acc * tensorGet p.2 (p.1.map (envGet env))) 1

/-- Dense einsum evaluation (the numeric backend, `oe.contract` on a flat
einsum string): the result is indexed by the res labels and sums each term
over all assignments of the contracted labels. -/
def einsumEval (argLs : List (List Char)) (resLs : List Char) (ops : List Tensor) :
    Except Err Tensor :=
  match buildSizes argLs ops [] with
  | .error e => .error e
  | .ok sz =>
    let allL := dedupF (argLs.foldr (fun a acc => a ++ acc) [])
    if resLs.Nodup ∧ ∀ l ∈ resLs, l ∈ allL then
      let sumL := allL.filter (fun l => decide (l ∉ resLs))
      .ok { dims := resLs.map (envGet sz),
            data := (enumEnvs sz resLs).map (fun re =>
              ((enumEnvs sz sumL).map (fun se => einsumTerm argLs ops (re ++ se))).foldl
                (fun a b => a + b) 0) }
    else .error .backendShape

/-- `tt.tt_cores[i]`, failing with an index error out of bounds. -/
def getCore (o : Operand) (i : Nat) : Except Err Tensor :=
  match o.tt_cores.get? i with
  | some c => .ok c
  | none => .error .indexError

/-- Map a fallible function over a list, stopping at the first error. -/
def listMapE (f : α → Except Err β) : List α → Except Err (List β)
  | [] => .ok []
  | a :: l =>
    match f a with
    | .error e => .error e
    | .ok b =>
      match listMapE f l with
      | .error e => .error e
      | .ok r => .ok (b :: r)

/-- `jnp.reshape` as used by the evaluators (size-preserving uses only). -/
def reshapeT (t : Tensor) (ds : List Nat) : Tensor := { dims := ds, data := t.data }

/-- One core position of the independent evaluator: gather the `i`-th core
of every operand, contract, then reshape by collapsing the res label
groups (`np.split` at the group boundaries, `np.prod` of each part). -/
def indepCore (eA : List (List Char)) (eR : List Char) (ops : List Operand)
    (nbd : Nat) (batch : List Nat) (nL nM : Nat) (i : Nat) : Except Err Tensor :=
  match listMapE (fun o => getCore o i) ops with
  | .error e => .error e
  | .ok curr =>
    match einsumEval eA eR curr with
    | .error e => .error e
    | .ok core =>
      let shape := core.dims.drop nbd
      let s1 := (shape.take nL).foldl (fun a b => a * b) 1
      let s2 := ((shape.drop nL).take nM).foldl (fun a b => a * b) 1
      let s3 := (shape.drop (nL + nM)).foldl (fun a b => a * b) 1
      .ok (reshapeT core (batch ++ [s1, s2, s3]))

/-- The loop of the independent evaluator over core positions `i, …, i+n-1`. -/
def indepGo (eA : List (List Char)) (eR : List Char) (ops : List Operand)
    (nbd : Nat) (batch : List Nat) (nL nM : Nat) : Nat → Nat → Except Err (List Tensor)
  | _, 0 => .ok []
  | i, n + 1 =>
    match indepCore eA eR ops nbd batch nL nM i with
    | .error e => .error e
    | .ok c =>
      match indepGo eA eR ops nbd batch nL nM (i + 1) n with
      | .error e => .error e
      | .ok rest => .ok (c :: rest)

/-- The template object's value after a `_fuse` call.  The wrap at the
end of `compile_independent` stores the closure's template dict itself,
and `_fuse`'s `apply_mapping` rewrites each non-leaf operand's recorded
dict in place — which is that very template object whenever the operand
was produced by the same compiled operation.  The embedding has no object
identity, so an operand is taken to alias the template exactly when its
recorded descriptor value equals the call's template value; for each such
operand (pre-state zipped with its `_fuse` post-state) the template's
value becomes the operand's relabeled post-call descriptor. -/
def postTemplate (tte : TTEinsum) (pairs : List (Operand × Operand)) : TTEinsum :=
  pairs.foldl (fun T q => if q.1.producer = some tte then (q.2.producer).getD T else T) tte

/-- `compile_independent(tt_einsum)` applied to call operands, with the
post-call operand states exposed.  When some operand is a `WrappedTT` the
call fuses first and wraps its result in a new node recording the
(flattened) `args` and the template descriptor as it stands after the
call — the unfused template, relabeled in place when an operand aliased
it (`postTemplate`), never the fused descriptor. -/
def compileIndependentFull (tte : TTEinsum) (args : List Operand) :
    Except Err (Operand × List Operand) :=
  let isFusing := args.any Operand.isWrapped
  match (if isFusing then
           match fuseFull tte args with
           | .error e => .error e
           | .ok r => .ok (r.combined, r.flatOps, r.postOps)
         else .ok (tte, args, args) :
         Except Err (TTEinsum × List Operand × List Operand)) with
  | .error e => .error e
  | .ok (tte', args', post) =>
    match args'.get? 0 with
    | none => .error .indexError
    | some a0 =>
      match tte'.res with
      | r0 :: r1 :: _ =>
        let eA := tte'.args.map coreJoin
        let eR := coreJoin tte'.res
        match indepGo eA eR args' a0.num_batch_dims a0.batch_shape
            r0.length r1.length 0 a0.tt_cores.length with
        | .error e => .error e
        | .ok cs =>
          .ok ((if isFusing then
                  Operand.wrapped (TT.mk cs) (some args')
                    (some (postTemplate tte (args.zip post)))
                else Operand.plain (TT.mk cs)), post)
      | _ => .error .indexError

/-- `jnp.ones([1] * len(args))`. -/
def onesTensor (n : Nat) : Tensor := { dims := List.replicate n 1, data := [1] }

/-- One step of the running evaluator: contract every operand's core at
position `i` together with the previous accumulator. -/
def runStep (eA : List (List Char)) (eR : List Char) (ops : List Operand)
    (i : Nat) (acc : Tensor) : Except Err Tensor :=
  match listMapE (fun o => getCore o i) ops with
  | .error e => .error e
  | .ok curr => einsumEval eA eR (curr ++ [acc])

/-- The loop of the running evaluator, collecting every intermediate
accumulator. -/
def runGo (eA : List (List Char)) (eR : List Char) (ops : List Operand) :
    Nat → Nat → Tensor → Except Err (List Tensor)
  | _, 0, _ => .ok []
  | i, n + 1, acc =>
    match runStep eA eR ops i acc with
    | .error e => .error e
    | .ok acc' =>
      match runGo eA eR ops (i + 1) n acc' with
      | .error e => .error e
      | .ok rest => .ok (acc' :: rest)

/-- The running evaluator's fold to its final accumulator only. -/
def runFold (eA : List (List Char)) (eR : List Char) (ops : List Operand) :
    Nat → Nat → Tensor → Except Err Tensor
  | _, 0, acc => .ok acc
  | i, n + 1, acc =>
    match runStep eA eR ops i acc with
    | .error e => .error e
    | .ok acc' => runFold eA eR ops (i + 1) n acc'

/-- `compile_running(tt_einsum)` applied to call operands, with the
post-call operand states exposed: fuses first when some operand is
wrapped, then folds the per-position contractions starting from the
all-ones accumulator, returning the bare list of intermediate results. -/
def compileRunningFull (tte : TTEinsum) (args : List Operand) :
    Except Err (List Tensor × List Operand) :=
  let isFusing := args.any Operand.isWrapped
  match (if isFusing then
           match fuseFull tte args with
           | .error e => .error e
           | .ok r => .ok (r.combined, r.flatOps, r.postOps)
         else .ok (tte, args, args) :
         Except Err (TTEinsum × List Operand × List Operand)) with
  | .error e => .error e
  | .ok (tte', args', post) =>
    match args'.get? 0 with
    | none => .error .indexError
    | some a0 =>
      let eA := tte'.args.map coreJoin
      let eR := coreJoin tte'.res
      match runGo eA eR args' 0 a0.tt_cores.length (onesTensor args'.length) with
      | .error e => .error e
      | .ok l => .ok (l, post)

/-- The `multiply` template of `ops.py`. -/
def multiplyE : TTEinsum :=
  { type := "independent",
    args := [[['a'], ['i'], ['b']], [['c'], ['i'], ['d']]],
    res := [['a', 'c'], ['i'], ['b', 'd']] }

/-- The `main_loop` template of `flat_inner` in `ops.py`. -/
def flatInnerE : TTEinsum :=
  { type := "running",
    args := [[['a'], ['i'], ['b']], [['c'], ['i'], ['d']], [['a'], ['c']]],
    res := [['b'], ['d']] }

/-- A representative independent TT-matrix-product template (a compiled
operation whose middle label `j` is contracted away and so does not occur
in `res`), used as a fusion input. -/
def matmulE : TTEinsum :=
  { type := "independent",
    args := [[['a'], ['i', 'j'], ['b']], [['c'], ['j', 'k'], ['d']]],
    res := [['a', 'c'], ['i', 'k'], ['b', 'd']] }

/-- The compiled `multiply` operation on two operands. -/
def multiplyOp (a b : Operand) : Except Err Operand :=
  match compileIndependentFull multiplyE [a, b] with
  | .error e => .error e
  | .ok r => .ok r.1

/-- `WrappedTT(arg)`: the leaf wrapping done by `fuse` on every input. -/
def leafW (t : TT) : Operand := .wrapped t none none

/-- The empty plain operand, used as a default for head accesses. -/
def defaultOperand : Operand := .plain { tt_cores := [] }

deriving instance DecidableEq for Except

/-- All letters of a list of cores, in order. -/
def coresLetters (cs : List EinCore) : List Char := cs.foldr (fun c acc => coreJoin c ++ acc) []

/-- The labels of an inlined block's relabeled args that do not occur in
its relabeled res.  These denote axes private to the block (e.g. its
contracted inner axes); a collision-free fusion may not use them anywhere
else in the combined descriptor. -/
def blockPrivate (b : List EinCore × EinCore) : List Char :=
  (coresLetters b.1).filter (fun l => decide (l ∉ coreJoin b.2))

/-- Formalization of the label-collision-freedom claim for one fusion
call: every label private to one inlined operand's block occurs in no
other inlined operand's block, in no outer-derived core, and not in the
combined res — i.e. the relabelings map into labels unused elsewhere, so
no label denotes two different logical axes.  Vacuously true when `_fuse`
raises. -/
def fuseCollisionFree (tte : TTEinsum) (args : List Operand) : Bool :=
  match fuseFull tte args with
  | .error _ => true
  | .ok r =>
    (List.range r.blocks.length).all (fun i =>
      (blockPrivate (r.blocks.getD i ([], []))).all (fun l =>
        ((List.range r.blocks.length).all (fun j =>
          decide (j = i) || decide (l ∉ coresLetters (r.blocks.getD j ([], [])).1)))
        && decide (l ∉ coresLetters r.otherCores)
        && decide (l ∉ coreJoin r.combined.res)))

/-- A one-core TT chain holding a single value, ranks `(1, 1)`. -/
def scalarTT (v : Int) : TT := { tt_cores := [{ dims := [1, 1, 1], data := [v] }] }

/-- A one-core TT chain with middle dimension 2, ranks `(1, 1)`. -/
def vecTT (v w : Int) : TT := { tt_cores := [{ dims := [1, 2, 1], data := [v, w] }] }

/-- `fuse(lambda a, b, c: multiply(c, multiply(a, b)))`: wrap the leaves,
evaluate through the compiled operations, unwrap the final node. -/
def fusedMulLeafFirst (a b c : TT) : Except Err TT :=
  match multiplyOp (leafW a) (leafW b) with
  | .error e => .error e
  | .ok m1 =>
    match multiplyOp (leafW c) m1 with
    | .error e => .error e
    | .ok r => .ok r.theTT

/-- The same composite `multiply(c, multiply(a, b))` evaluated unfused,
materializing the intermediate TT. -/
def unfusedMulLeafFirst (a b c : TT) : Except Err TT :=
  match multiplyOp (.plain a) (.plain b) with
  | .error e => .error e
  | .ok m1 =>
    match multiplyOp (.plain c) m1 with
    | .error e => .error e
    | .ok r => .ok r.theTT

/-- `fuse(lambda a, b, c, d: multiply(multiply(multiply(a, b), c), d))`. -/
def fusedChain3 (a b c d : TT) : Except Err TT :=
  match multiplyOp (leafW a) (leafW b) with
  | .error e => .error e
  | .ok m1 =>
    match multiplyOp m1 (leafW c) with
    | .error e => .error e
    | .ok m2 =>
      match multiplyOp m2 (leafW d) with
      | .error e => .error e
      | .ok m3 => .ok m3.theTT

/-- The same three-multiply chain evaluated unfused. -/
def unfusedChain3 (a b c d : TT) : Except Err TT :=
  match multiplyOp (.plain a) (.plain b) with
  | .error e => .error e
  | .ok m1 =>
    match multiplyOp m1 (.plain c) with
    | .error e => .error e
    | .ok m2 =>
      match multiplyOp m2 (.plain d) with
      | .error e => .error e
      | .ok m3 => .ok m3.theTT

/-- A provenance node as produced by a matmul-style compiled operation
(recorded leaves and the `matmulE` descriptor). -/
def c2w0 : Operand := .wrapped (scalarTT 2) (some [leafW (scalarTT 2), leafW (scalarTT 3)]) (some matmulE)

/-- A second matmul-produced provenance node. -/
def c2w1 : Operand := .wrapped (scalarTT 5) (some [leafW (scalarTT 5), leafW (scalarTT 7)]) (some matmulE)

/-- The node returned by the fused `multiply(multiply(a, b), c)` on three
leaf-wrapped scalar chains: its recorded inputs are what the code stored. -/
def c3Node : Except Err Operand :=
  match multiplyOp (leafW (scalarTT 2)) (leafW (scalarTT 3)) with
  | .error e => .error e
  | .ok m1 => multiplyOp m1 (leafW (scalarTT 5))

/-- A multiply-produced provenance node used as an operand. -/
def c4w : Operand := .wrapped (scalarTT 2) (some [leafW (scalarTT 2), leafW (scalarTT 3)]) (some multiplyE)

/-- The recorded descriptor of operand 0 as it stands after the compiled
operation returns (the post-call state `arg.tt_einsum`). -/
def c4Post : Except Err (Option TTEinsum) :=
  match compileIndependentFull multiplyE [c4w, leafW (scalarTT 5)] with
  | .error e => .error e
  | .ok r => .ok ((r.2.headD defaultOperand).producer)

/-- The value `_fuse`'s relabeling writes into the multiply descriptor. -/
def multiplyRelabeled : TTEinsum :=
  { type := "independent",
    args := [[['l'], ['n'], ['o']], [['m'], ['n'], ['p']]],
    res := [['l', 'm'], ['n'], ['o', 'p']] }

/-- A provenance node whose recorded inputs contain another provenance
node (a hand-nested node; reachable only outside the `fuse` boundary). -/
def c8inner : Operand := .wrapped (scalarTT 2) (some [leafW (scalarTT 2), leafW (scalarTT 3)]) (some multiplyE)

/-- The nested node wrapping `c8inner` as one of its recorded inputs. -/
def c8outerBad : Operand := .wrapped (scalarTT 5) (some [c8inner]) (some multiplyE)

/-- A two-core TT chain of scalar cores. -/
def twoCoreTT : TT :=
  { tt_cores := [{ dims := [1, 1, 1], data := [3] }, { dims := [1, 1, 1], data := [5] }] }

/-- A two-core TT chain with values 2 and 3. -/
def runA : TT :=
  { tt_cores := [{ dims := [1, 1, 1], data := [2] }, { dims := [1, 1, 1], data := [3] }] }

/-- A two-core TT chain with values 5 and 7. -/
def runB : TT :=
  { tt_cores := [{ dims := [1, 1, 1], data := [5] }, { dims := [1, 1, 1], data := [7] }] }

/-- The two intermediate accumulators `flat_inner`'s running template
produces on `runA` and `runB`. -/
def runOut : List Tensor :=
  [{ dims := [1, 1], data := [10] }, { dims := [1, 1], data := [210] }]

/-- An operand whose recorded inputs, when present, are all true leaves
(the invariant every node built by the compiled operations satisfies). -/
def leafInputsOk : Operand → Prop
  | .wrapped _ (some ins) (some _) => ∀ x ∈ ins, x.isLeaf = true
  | _ => True

/-- The post-call operand states of a `_fuse` call, when it succeeds. -/
def fusePost (tte : TTEinsum) (args : List Operand) : Option (List Operand) :=
  match fuseFull tte args with
  | .ok r => some r.postOps
  | .error _ => none

/-- The flattened operand list of a `_fuse` call, when it succeeds. -/
def fuseFlat (tte : TTEinsum) (args : List Operand) : Option (List Operand) :=
  match fuseFull tte args with
  | .ok r => some r.flatOps
  | .error _ => none

/-- Claim C1 (code bug): fusion is claimed transparent — fused and unfused
evaluation of every valid chain of compiled operations must agree — but
the code violates it twice over.  `multiply(c, multiply(a, b))` evaluates
fused to the chain `[275, 455]` and unfused to `[110, 273]` (the leaf
operand's core is spliced before the second mapping rewrites the outer
args, so its dimension label is left decoupled and wrongly summed), and
the three-deep chain `multiply(multiply(multiply(a, b), c), d)` crashes
fused with the backend arity error (each node records flattened operands
against its unfused two-argument template) while unfused it succeeds. -/
theorem c1_fusion_not_transparent :
    fusedMulLeafFirst (vecTT 5 7) (vecTT 11 13) (vecTT 2 3) =
      .ok { tt_cores := [{ dims := [1, 2, 1], data := [275, 455] }] } ∧
    unfusedMulLeafFirst (vecTT 5 7) (vecTT 11 13) (vecTT 2 3) =
      .ok { tt_cores := [{ dims := [1, 2, 1], data := [110, 273] }] } ∧
    fusedChain3 (scalarTT 2) (scalarTT 3) (scalarTT 5) (scalarTT 7) = .error .backendArity ∧
    unfusedChain3 (scalarTT 2) (scalarTT 3) (scalarTT 5) (scalarTT 7) = .ok (scalarTT 210) := by
  decide

/-- Claim C2, counterexample: in a fusion call where two operand positions
carry matmul-produced provenance nodes, the second relabeling reuses the
letter `k` that the first relabeling assigned to the first node's
contracted axis (the vacant letters are recomputed from the outer
descriptor only, which never contains an inlined block's private labels),
so one label denotes two different logical axes in the combined
descriptor. -/
theorem c2_counterexample : fuseCollisionFree multiplyE [c2w0, c2w1] = false := by
  decide

/-- Claim C3 (code bug): the node returned by a compiled operation invoked
with a non-leaf provenance operand records the *flattened* operand list,
not the operation's original operands: `multiply(multiply(a, b), c)` was
invoked with two operands yet its result records three leaf inputs,
against the template descriptor as relabeled in place during this very
call (`multiplyRelabeled`, still a two-argument unfused template, not the
fused three-core descriptor) — an inconsistent pair of three operands for
a two-argument descriptor. -/
theorem c3_wrap_records_flattened_operands :
    (match c3Node with
     | .ok o => (o.recInputs.map List.length, o.recInputs.map (List.map Operand.isLeaf), o.producer)
     | .error _ => (none, none, none)) =
      (some 3, some [true, true, true], some multiplyRelabeled) ∧
    multiplyRelabeled.args.length = 2 := by
  decide

/-- Claim C4, counterexample: after `multiply` is invoked with the
provenance node `c4w` (recorded descriptor `multiplyE`), the operand's
recorded producing descriptor has been rewritten in place by
`apply_mapping` to the relabeled `multiplyRelabeled`, which differs from
`multiplyE` — the descriptor is not unchanged. -/
theorem c4_counterexample :
    c4Post = .ok (some multiplyRelabeled) ∧ multiplyRelabeled ≠ multiplyE := by
  decide

/-- Claim C5, counterexample: invoking the independent evaluator on
chains of differing length (one core vs. two) is not rejected at all — it
returns successfully, silently truncating to the first operand's single
core position and ignoring the second operand's extra core. -/
theorem c5_counterexample :
    (match compileIndependentFull multiplyE [.plain (scalarTT 2), .plain twoCoreTT] with
     | .ok r => (Except.ok r.1.theTT : Except Err TT)
     | .error e => Except.error e) = .ok (scalarTT 6) := by
  decide

/-- Claim C8, counterexample: `_fuse` flattens only one level — on an
operand whose recorded inputs contain a provenance node, the returned
flattened operand list still contains that non-leaf node. -/
theorem c8_counterexample :
    (match fuseFull multiplyE [c8outerBad, leafW (scalarTT 5)] with
     | .ok r => some (r.flatOps.map Operand.isLeaf)
     | .error _ => none) = some [false, true] := by
  decide

/-- Claim C10: wrapping a TT in a provenance node is transparent for all
shape queries — `WrappedTT` returns exactly the wrapped TT's `tt_cores`,
`batch_shape`, `shape`, `axis_dim` and `num_batch_dims`, for any recorded
inputs and descriptor metadata. -/
theorem c10_wrapped_shape_transparent (t : TT) (inputs : Option (List Operand))
    (tte : Option TTEinsum) :
    (Operand.wrapped t inputs tte).tt_cores = t.tt_cores ∧
    (Operand.wrapped t inputs tte).batch_shape = t.batch_shape ∧
    (Operand.wrapped t inputs tte).shape = t.shape ∧
    (Operand.wrapped t inputs tte).axis_dim = t.axis_dim ∧
    (Operand.wrapped t inputs tte).num_batch_dims = t.num_batch_dims :=
  ⟨rfl, rfl, rfl, rfl, rfl⟩

/-! Association-lookup toolkit for the mapping lemmas. -/

theorem mapFind_mem {m : Mapping} {l : Char} {g : Group} (h : mapFind m l = some g) :
    (l, g) ∈ m := by
  induction m with
  | nil => simp [mapFind] at h
  | cons e m ih =>
    obtain ⟨k, v⟩ := e
    by_cases hk : k = l
    · subst hk
      simp [mapFind] at h
      simp [h]
    · simp [mapFind, hk] at h
      exact List.mem_cons_of_mem _ (ih h)

theorem mapFind_append (m₁ m₂ : Mapping) (l : Char) :
    mapFind (m₁ ++ m₂) l =
      match mapFind m₁ l with
      | some g => some g
      | none => mapFind m₂ l := by
  induction m₁ with
  | nil => simp [mapFind]
  | cons e m ih =>
    obtain ⟨k, v⟩ := e
    by_cases hk : k = l <;> simp [mapFind, hk, ih]

theorem mapFind_eq_none_of_not_mem_keys {m : Mapping} {l : Char}
    (h : l ∉ m.map Prod.fst) : mapFind m l = none := by
  induction m with
  | nil => rfl
  | cons e m ih =>
    obtain ⟨k, v⟩ := e
    have hk : k ≠ l := by
      intro hk
      exact h (by simp [hk])
    have hm : l ∉ m.map Prod.fst := fun hm => h (List.mem_cons_of_mem _ hm)
    simp only [mapFind, if_neg hk]
    exact ih hm

theorem mapFind_of_nodup_keys {m : Mapping} (h : (m.map Prod.fst).Nodup) :
    ∀ e ∈ m, mapFind m e.1 = some e.2 := by
  induction m with
  | nil => intro e he; simp at he
  | cons p m ih =>
    obtain ⟨k, v⟩ := p
    intro e he
    have hcons : k ∉ m.map Prod.fst ∧ (m.map Prod.fst).Nodup := by
      have heq : ((k, v) :: m).map Prod.fst = k :: m.map Prod.fst := rfl
      rw [heq] at h
      exact List.nodup_cons.mp h
    rcases List.mem_cons.mp he with he | he
    · subst he; simp [mapFind]
    · have hk : k ≠ e.1 := by
        intro hk
        exact hcons.1 (by rw [hk]; exact List.mem_map.mpr ⟨e, he, rfl⟩)
      simp only [mapFind, if_neg hk]
      exact ih hcons.2 e he

/-! Lemmas about the relabeling mapping built by `_fuse`. -/

theorem relabelGo_find_some {v : List Char} {x : Char} {g : Group} :
    ∀ {ls : List Char} {i : Nat} {m : Mapping},
      mapFind (relabelGo v ls i m) x = some g →
      (∃ j, ls.get? j = some x ∧ g = [v.getD (i + j) 'a']) ∨ mapFind m x = some g := by
  intro ls
  induction ls with
  | nil => intro i m h; exact Or.inr h
  | cons l ls ih =>
    intro i m h
    rcases ih h with ⟨j, hj, hg⟩ | h'
    · exact Or.inl ⟨j + 1, by simpa using hj, by simpa [Nat.add_assoc, Nat.add_comm 1 j] using hg⟩
    · by_cases hl : l = x
      · subst hl
        simp [mapFind] at h'
        exact Or.inl ⟨0, rfl, by simp [h'.symm]⟩
      · simp [mapFind, hl] at h'
        exact Or.inr h'

theorem relabelGo_find_isSome {v : List Char} {x : Char} :
    ∀ {ls : List Char} {i : Nat} {m : Mapping},
      (mapFind m x).isSome = true ∨ x ∈ ls →
      (mapFind (relabelGo v ls i m) x).isSome = true := by
  intro ls
  induction ls with
  | nil =>
    intro i m h
    rcases h with h | h
    · exact h
    · simp at h
  | cons l ls ih =>
    intro i m h
    apply ih
    by_cases hl : l = x
    · exact Or.inl (by simp [mapFind, hl])
    · rcases h with h | h
      · exact Or.inl (by simpa [mapFind, hl] using h)
      · rcases List.mem_cons.mp h with h' | h'
        · exact absurd h'.symm hl
        · exact Or.inr h'

/-- The relabel mapping sends each letter of the inner einsum string to a
vacant letter positioned at one of that letter's occurrence indices. -/
theorem relabel_mapGet_char (outerEinsum : List Char) (inner : TTEinsum) (m : Mapping)
    (h : relabelOf outerEinsum inner = .ok m) (x : Char) (hx : x ∈ currLetters inner) :
    ∃ j, j < (currLetters inner).length ∧ (currLetters inner).get? j = some x ∧
      mapGet m x = [(vacantLetters outerEinsum).getD j 'a'] := by
  unfold relabelOf at h
  split at h
  · injection h with hm
    subst hm
    have hsome : (mapFind (relabelGo (vacantLetters outerEinsum) (currLetters inner) 0 [])
        x).isSome = true :=
      relabelGo_find_isSome (Or.inr hx)
    obtain ⟨g, hg⟩ := Option.isSome_iff_exists.mp hsome
    rcases relabelGo_find_some (v := vacantLetters outerEinsum) (x := x) (g := g) hg with
      ⟨j, hj, hgj⟩ | habs
    · refine ⟨j, ?_, hj, ?_⟩
      · exact (List.get?_eq_some.mp hj).1
      · simp [mapGet, hg, hgj]
    · simp [mapFind] at habs
  · exact absurd h (by simp)

/-- Claim C2, amended part: the relabeling `_fuse` builds for one inlined
operand is injective on the letters of the inner descriptor's einsum
string and maps them to lowercase letters that do not occur in the outer
descriptor's einsum string as it stands at that step. -/
theorem c2_relabeling_injective_and_fresh (outerEinsum : List Char) (inner : TTEinsum)
    (m : Mapping) (h : relabelOf outerEinsum inner = .ok m) :
    (∀ x ∈ currLetters inner, ∀ y ∈ currLetters inner, mapGet m x = mapGet m y → x = y) ∧
    (∀ x ∈ currLetters inner, ∀ c ∈ mapGet m x, c ∉ outerEinsum ∧ c ∈ asciiLowercase) := by
  have hlen : (currLetters inner).length ≤ (vacantLetters outerEinsum).length := by
    unfold relabelOf at h
    split at h
    · assumption
    · exact absurd h (by simp)
  have hnd : (vacantLetters outerEinsum).Nodup := by
    have : asciiLowercase.Nodup := by decide
    exact this.filter _
  constructor
  · intro x hx y hy hxy
    obtain ⟨j, hjl, hjx, hjm⟩ := relabel_mapGet_char outerEinsum inner m h x hx
    obtain ⟨k, hkl, hky, hkm⟩ := relabel_mapGet_char outerEinsum inner m h y hy
    rw [hjm, hkm] at hxy
    have hveq : (vacantLetters outerEinsum).getD j 'a' =
        (vacantLetters outerEinsum).getD k 'a' := by
      simpa using hxy
    have hjv : j < (vacantLetters outerEinsum).length := lt_of_lt_of_le hjl hlen
    have hkv : k < (vacantLetters outerEinsum).length := lt_of_lt_of_le hkl hlen
    rw [List.getD_eq_get? , List.getD_eq_get?, List.get?_eq_get hjv, List.get?_eq_get hkv]
      at hveq
    simp at hveq
    have : (⟨j, hjv⟩ : Fin (vacantLetters outerEinsum).length) = ⟨k, hkv⟩ :=
      (hnd.get_inj_iff).mp hveq
    have hjk : j = k := by simpa using this
    subst hjk
    rw [hjx] at hky
    exact (Option.some.injEq _ _).mp hky
  · intro x hx c hc
    obtain ⟨j, hjl, _, hjm⟩ := relabel_mapGet_char outerEinsum inner m h x hx
    rw [hjm] at hc
    have hcv : c = (vacantLetters outerEinsum).getD j 'a' := by simpa using hc
    have hjv : j < (vacantLetters outerEinsum).length := lt_of_lt_of_le hjl hlen
    have hmem : c ∈ vacantLetters outerEinsum := by
      rw [hcv, List.getD_eq_get?, List.get?_eq_get hjv, Option.getD_some]
      exact List.get_mem _ _ _
    have hf := List.mem_filter.mp hmem
    exact ⟨of_decide_eq_true hf.2, hf.1⟩

/-- Witness for the amended C2: the relabeling computed when `matmulE` is
inlined into `multiplyE` is injective and lands outside `multiplyE`'s
einsum string. -/
theorem c2_relabeling_witness :
    ∃ m, relabelOf (ttToVanillaEinsum multiplyE) matmulE = .ok m ∧
      (∀ x ∈ currLetters matmulE, ∀ y ∈ currLetters matmulE, mapGet m x = mapGet m y → x = y) ∧
      (∀ x ∈ currLetters matmulE, ∀ c ∈ mapGet m x,
        c ∉ ttToVanillaEinsum multiplyE ∧ c ∈ asciiLowercase) := by
  refine ⟨(relabelOf (ttToVanillaEinsum multiplyE) matmulE).toOption.getD [], ?_, ?_⟩
  · decide
  · exact c2_relabeling_injective_and_fresh (ttToVanillaEinsum multiplyE) matmulE _ (by decide)

/-! Lemmas about the splice mapping of fusion step 3. -/

theorem foldl_cons_eq_reverse_append {β : Type} (f : β → Char × Group) (ps : List β)
    (m : Mapping) :
    ps.foldl (fun acc q => f q :: acc) m = (ps.map f).reverse ++ m := by
  induction ps generalizing m with
  | nil => rfl
  | cons p ps ih => simp [ih]

theorem spliceGo_structure : ∀ (ps : List (Group × Group)) (m0 m : Mapping),
    spliceGo ps m0 = .ok m →
    ∃ pre, m = pre ++ m0 ∧ ∀ e ∈ pre, e.1 ∈ ps.flatMap Prod.fst := by
  intro ps
  induction ps with
  | nil =>
    intro m0 m h
    injection h with h
    exact ⟨[], h.symm, by simp⟩
  | cons p ps ih =>
    obtain ⟨fr, dst⟩ := p
    intro m0 m h
    simp only [spliceGo] at h
    by_cases h1 : fr.length = 1
    · rw [if_pos h1] at h
      obtain ⟨pre, hpre, hkeys⟩ := ih _ _ h
      refine ⟨pre ++ [(fr.headD 'a', dst)], by simp [hpre], ?_⟩
      intro e he
      rcases List.mem_append.mp he with he | he
      · exact List.mem_flatMap.mpr
          (by
            obtain ⟨q, hq, hx⟩ := List.mem_flatMap.mp (hkeys e he)
            exact ⟨q, List.mem_cons_of_mem _ hq, hx⟩)
      · obtain ⟨x, hx⟩ := List.length_eq_one.mp h1
        have he' : e = (fr.headD 'a', dst) := List.mem_singleton.mp he
        subst he'
        refine List.mem_flatMap.mpr ⟨(fr, dst), List.mem_cons_self _ _, ?_⟩
        rw [hx]
        simp
    · rw [if_neg h1] at h
      by_cases h2 : fr.length = dst.length
      · rw [if_pos h2] at h
        obtain ⟨pre, hpre, hkeys⟩ := ih _ _ h
        rw [foldl_cons_eq_reverse_append] at hpre
        refine ⟨pre ++ ((fr.zip dst).map (fun q => (q.1, [q.2]))).reverse,
          by simp [hpre], ?_⟩
        intro e he
        rcases List.mem_append.mp he with he | he
        · exact List.mem_flatMap.mpr
            (by
              obtain ⟨q, hq, hx⟩ := List.mem_flatMap.mp (hkeys e he)
              exact ⟨q, List.mem_cons_of_mem _ hq, hx⟩)
        · obtain ⟨q, hq, hqe⟩ := List.mem_map.mp (List.mem_reverse.mp he)
          refine List.mem_flatMap.mpr ⟨(fr, dst), List.mem_cons_self _ _, ?_⟩
          rw [← hqe]
          exact (List.mem_zip hq).1
      · rw [if_neg h2] at h
        exact absurd h (by simp)

theorem spliceGo_error_iff : ∀ (ps : List (Group × Group)) (m : Mapping),
    spliceGo ps m = .error Err.valueError ↔
      ∃ p ∈ ps, p.1.length ≠ 1 ∧ p.1.length ≠ p.2.length := by
  intro ps
  induction ps with
  | nil => intro m; simp [spliceGo]
  | cons p ps ih =>
    obtain ⟨fr, dst⟩ := p
    intro m
    simp only [spliceGo]
    by_cases h1 : fr.length = 1
    · rw [if_pos h1, ih]
      constructor
      · rintro ⟨q, hq, hbad⟩
        exact ⟨q, List.mem_cons_of_mem _ hq, hbad⟩
      · rintro ⟨q, hq, hbad⟩
        rcases List.mem_cons.mp hq with rfl | hq
        · exact absurd h1 hbad.1
        · exact ⟨q, hq, hbad⟩
    · rw [if_neg h1]
      by_cases h2 : fr.length = dst.length
      · rw [if_pos h2, ih]
        constructor
        · rintro ⟨q, hq, hbad⟩
          exact ⟨q, List.mem_cons_of_mem _ hq, hbad⟩
        · rintro ⟨q, hq, hbad⟩
          rcases List.mem_cons.mp hq with rfl | hq
          · exact absurd h2 hbad.2
          · exact ⟨q, hq, hbad⟩
      · rw [if_neg h2]
        constructor
        · intro _
          exact ⟨(fr, dst), List.mem_cons_self _ _, h1, h2⟩
        · intro _
          rfl

theorem foldr_append_eq_of_pointwise (f : Char → Group) :
    ∀ (fr dst : List Char), fr.length = dst.length →
      (∀ q ∈ fr.zip dst, f q.1 = [q.2]) →
      fr.foldr (fun l acc => f l ++ acc) [] = dst := by
  intro fr
  induction fr with
  | nil =>
    intro dst h _
    cases dst with
    | nil => rfl
    | cons y dst => simp at h
  | cons x fr ih =>
    intro dst h hp
    cases dst with
    | nil => simp at h
    | cons y dst =>
      have hx : f x = [y] := hp (x, y) (by simp)
      simp only [List.foldr_cons, hx]
      have := ih dst (by simpa using h) (fun q hq => hp q (List.mem_cons_of_mem _ hq))
      rw [this]
      rfl

theorem spliceGo_content : ∀ (ps : List (Group × Group)) (m0 m : Mapping),
    spliceGo ps m0 = .ok m → (ps.flatMap Prod.fst).Nodup →
    ∀ p ∈ ps, applySingleMapping [p.1] m = [p.2] := by
  intro ps
  induction ps with
  | nil =>
    intro m0 m _ _ p hp
    simp at hp
  | cons p0 ps ih =>
    obtain ⟨fr, dst⟩ := p0
    intro m0 m h hnd p hp
    have hflat : ((fr, dst) :: ps).flatMap Prod.fst = fr ++ ps.flatMap Prod.fst := by simp
    rw [hflat] at hnd
    have hndfr : fr.Nodup := (List.nodup_append.mp hnd).1
    have hndps : (ps.flatMap Prod.fst).Nodup := (List.nodup_append.mp hnd).2.1
    have hdisj : fr.Disjoint (ps.flatMap Prod.fst) := (List.nodup_append.mp hnd).2.2
    simp only [spliceGo] at h
    by_cases h1 : fr.length = 1
    · rw [if_pos h1] at h
      rcases List.mem_cons.mp hp with rfl | hp
      · obtain ⟨x, hx⟩ := List.length_eq_one.mp h1
        subst hx
        obtain ⟨pre, hpre, hkeys⟩ := spliceGo_structure ps _ m h
        have hxnot : mapFind pre x = none := by
          apply mapFind_eq_none_of_not_mem_keys
          intro hmem
          obtain ⟨e, he, hex⟩ := List.mem_map.mp hmem
          exact hdisj (by simp) (hex ▸ hkeys e he)
        have hfind : mapFind m x = some dst := by
          rw [hpre, mapFind_append, hxnot]
          simp [mapFind]
        simp [applySingleMapping, mapGet, hfind]
      · exact ih _ _ h hndps p hp
    · rw [if_neg h1] at h
      by_cases h2 : fr.length = dst.length
      · rw [if_pos h2] at h
        rcases List.mem_cons.mp hp with rfl | hp
        · obtain ⟨pre, hpre, hkeys⟩ := spliceGo_structure ps _ m h
          rw [foldl_cons_eq_reverse_append] at hpre
          have hpoint : ∀ q ∈ fr.zip dst, mapGet m q.1 = [q.2] := by
            intro q hq
            have hq1 : q.1 ∈ fr := by
              obtain ⟨a, b⟩ := q
              exact (List.mem_zip hq).1
            have hnotpre : mapFind pre q.1 = none := by
              apply mapFind_eq_none_of_not_mem_keys
              intro hmem
              obtain ⟨e, he, hex⟩ := List.mem_map.mp hmem
              exact hdisj hq1 (hex ▸ hkeys e he)
            have hblockkeys :
                ((((fr.zip dst).map (fun q => (q.1, [q.2]))).reverse).map Prod.fst).Nodup := by
              rw [List.map_reverse, List.map_map]
              have hcomp : (Prod.fst ∘ fun q : Char × Char => (q.1, [q.2])) = Prod.fst := rfl
              rw [hcomp, List.map_fst_zip _ _ (le_of_eq h2), List.nodup_reverse]
              exact hndfr
            have hentry : (q.1, [q.2]) ∈ ((fr.zip dst).map (fun q => (q.1, [q.2]))).reverse :=
              List.mem_reverse.mpr (List.mem_map.mpr ⟨q, hq, rfl⟩)
            have hfindblock := mapFind_of_nodup_keys hblockkeys (q.1, [q.2]) hentry
            have hfind : mapFind m q.1 = some [q.2] := by
              rw [hpre, mapFind_append, hnotpre, mapFind_append, hfindblock]
            simp [mapGet, hfind]
          have := foldr_append_eq_of_pointwise (mapGet m) fr dst h2 hpoint
          simp [applySingleMapping]
          exact this
        · exact ih _ _ h hndps p hp
      · rw [if_neg h2] at h
        exact absurd h (by simp)

/-- Claim C6: for each operand position inlined by `_fuse`, the second
mapping maps a single-label source group to the whole matching target
group and equal-length groups label-for-label (so each source group
rewrites to exactly its target group), and the construction raises an
error exactly when some zipped group pair has neither a single-label
source nor equal lengths. -/
theorem c6_splice_mapping_spec (frs tos : List Group) :
    (buildSpliceMapping frs tos = .error Err.valueError ↔
      ∃ p ∈ frs.zip tos, p.1.length ≠ 1 ∧ p.1.length ≠ p.2.length) ∧
    (∀ m, buildSpliceMapping frs tos = .ok m →
      ((frs.zip tos).flatMap Prod.fst).Nodup →
      ∀ p ∈ frs.zip tos, applySingleMapping [p.1] m = [p.2]) := by
  constructor
  · exact spliceGo_error_iff (frs.zip tos) []
  · intro m hm hnd p hp
    exact spliceGo_content (frs.zip tos) [] m hm hnd p hp

/-- Witness for C6 at a concrete pair of group lists: the single-label
group `a` maps to the whole group `lm`, and the two-label group `ij` maps
label-for-label to `no`; no pair is rejected. -/
theorem c6_splice_mapping_witness :
    buildSpliceMapping [['a'], ['i', 'j']] [['l', 'm'], ['n', 'o']] =
      .ok [('j', ['o']), ('i', ['n']), ('a', ['l', 'm'])] ∧
    applySingleMapping [['a']] [('j', ['o']), ('i', ['n']), ('a', ['l', 'm'])] = [['l', 'm']] ∧
    applySingleMapping [['i', 'j']] [('j', ['o']), ('i', ['n']), ('a', ['l', 'm'])] =
      [['n', 'o']] := by
  refine ⟨by decide, ?_, ?_⟩
  · exact (c6_splice_mapping_spec [['a'], ['i', 'j']] [['l', 'm'], ['n', 'o']]).2
      _ (by decide) (by decide) (['a'], ['l', 'm']) (by decide)
  · exact (c6_splice_mapping_spec [['a'], ['i', 'j']] [['l', 'm'], ['n', 'o']]).2
      _ (by decide) (by decide) (['i', 'j'], ['n', 'o']) (by decide)

/-! Lemmas about the running evaluator's loop. -/

theorem runGo_length (eA : List (List Char)) (eR : List Char) (ops : List Operand) :
    ∀ (n i : Nat) (acc : Tensor) (l : List Tensor),
      runGo eA eR ops i n acc = .ok l → l.length = n := by
  intro n
  induction n with
  | zero =>
    intro i acc l h
    injection h with h
    rw [← h]
    rfl
  | succ n ih =>
    intro i acc l h
    simp only [runGo] at h
    split at h
    · exact absurd h (by simp)
    · rename_i a' hstep
      split at h
      · exact absurd h (by simp)
      · rename_i rest hrest
        injection h with h
        rw [← h]
        simp [ih _ _ _ hrest]

theorem runGo_step (eA : List (List Char)) (eR : List Char) (ops : List Operand) :
    ∀ (n i : Nat) (acc : Tensor) (l : List Tensor), runGo eA eR ops i n acc = .ok l →
      ∀ j, j < n →
        runStep eA eR ops (i + j) (if j = 0 then acc else l.getD (j - 1) defaultTensor) =
          .ok (l.getD j defaultTensor) := by
  intro n
  induction n with
  | zero => intro i acc l _ j hj; omega
  | succ n ih =>
    intro i acc l h j hj
    simp only [runGo] at h
    split at h
    · exact absurd h (by simp)
    · rename_i a' hstep
      split at h
      · exact absurd h (by simp)
      · rename_i rest hrest
        have hl : l = a' :: rest := by
          injection h with h
          exact h.symm
        subst hl
        cases j with
        | zero => simpa using hstep
        | succ j =>
          have hrec := ih _ _ _ hrest j (by omega)
          have harith : i + 1 + j = i + (j + 1) := by omega
          rw [harith] at hrec
          cases j with
          | zero => simpa using hrec
          | succ j' => simpa using hrec

theorem runGo_last (eA : List (List Char)) (eR : List Char) (ops : List Operand) :
    ∀ (n i : Nat) (acc : Tensor) (l : List Tensor), runGo eA eR ops i n acc = .ok l →
      runFold eA eR ops i n acc = .ok (l.getLastD acc) := by
  intro n
  induction n with
  | zero =>
    intro i acc l h
    injection h with h
    rw [← h]
    rfl
  | succ n ih =>
    intro i acc l h
    simp only [runGo] at h
    split at h
    · exact absurd h (by simp)
    · rename_i a' hstep
      split at h
      · exact absurd h (by simp)
      · rename_i rest hrest
        have hl : l = a' :: rest := by
          injection h with h
          exact h.symm
        subst hl
        simp only [runFold, hstep]
        rw [ih _ _ _ hrest]
        rw [List.getLastD_cons]

/-- Unfolding of the running evaluator in the unfused case. -/
theorem compileRunningFull_plain (tte : TTEinsum) (a : Operand) (args' : List Operand)
    (hfuse : (a :: args').any Operand.isWrapped = false) :
    compileRunningFull tte (a :: args') =
      (match runGo (tte.args.map coreJoin) (coreJoin tte.res) (a :: args') 0
          a.tt_cores.length (onesTensor (a :: args').length) with
       | .error e => .error e
       | .ok l => .ok (l, a :: args')) := by
  simp only [compileRunningFull, hfuse]
  rfl

/-- Claim C7: a Running-kind compiled operation on operand chains whose
first chain has `d ≥ 1` cores returns exactly `d` intermediate results;
the accumulator starts as the all-ones tensor with one size-1 axis per
operand, element `j` is the contraction of every operand's core at
position `j` with element `j-1` (element `0` with the initial
accumulator), and the last element equals the full left-to-right
reduction. -/
theorem c7_running_evaluator (tte : TTEinsum) (args : List Operand) (d : Nat)
    (l : List Tensor) (post : List Operand)
    (hplain : ∀ o ∈ args, o.isWrapped = false)
    (hd : (args.headD defaultOperand).tt_cores.length = d) (_hd1 : 1 ≤ d)
    (hok : compileRunningFull tte args = .ok (l, post)) :
    l.length = d ∧
    (∀ j, j < d →
      runStep (tte.args.map coreJoin) (coreJoin tte.res) args j
        (if j = 0 then onesTensor args.length else l.getD (j - 1) defaultTensor) =
        .ok (l.getD j defaultTensor)) ∧
    runFold (tte.args.map coreJoin) (coreJoin tte.res) args 0 d (onesTensor args.length) =
      .ok (l.getLastD (onesTensor args.length)) := by
  have hfuse : args.any Operand.isWrapped = false :=
    List.any_eq_false.mpr (fun x hx => by rw [hplain x hx]; simp)
  cases args with
  | nil =>
    simp [compileRunningFull] at hok
  | cons a args' =>
    have hd' : a.tt_cores.length = d := by simpa using hd
    rw [compileRunningFull_plain tte a args' hfuse, hd'] at hok
    split at hok
    · exact absurd hok (by simp)
    · rename_i l' hrun
      injection hok with hpair
      injection hpair with h1 h2
      subst h1
      refine ⟨runGo_length _ _ _ d 0 _ l' hrun, ?_, runGo_last _ _ _ d 0 _ l' hrun⟩
      intro j hj
      have := runGo_step _ _ _ d 0 _ l' hrun j hj
      simpa using this

/-- Witness for C7: the running `flat_inner` template applied to the
two-core chains `runA` and `runB` returns exactly the two accumulators
`[10]` and `[210]`, each obtained by one step from its predecessor. -/
theorem c7_running_witness :
    runOut.length = 2 ∧
    (∀ j, j < 2 →
      runStep (flatInnerE.args.map coreJoin) (coreJoin flatInnerE.res)
        [.plain runA, .plain runB] j
        (if j = 0 then onesTensor [Operand.plain runA, Operand.plain runB].length
         else runOut.getD (j - 1) defaultTensor) =
        .ok (runOut.getD j defaultTensor)) ∧
    runFold (flatInnerE.args.map coreJoin) (coreJoin flatInnerE.res)
      [.plain runA, .plain runB] 0 2 (onesTensor [Operand.plain runA, Operand.plain runB].length) =
      .ok (runOut.getLastD (onesTensor [Operand.plain runA, Operand.plain runB].length)) :=
  c7_running_evaluator flatInnerE [.plain runA, .plain runB] 2 runOut
    [.plain runA, .plain runB] (by decide) (by decide) (by decide) (by rfl)

/-! Lemmas about the loop of `_fuse`. -/

theorem fuseStepLeaf_post (acc : FuseAcc) (idx : Nat) (arg : Operand) (acc' : FuseAcc)
    (h : fuseStepLeaf acc idx arg = .ok acc') :
    acc'.postOps = acc.postOps ++ [arg] ∧ acc'.flatOps = acc.flatOps ++ [arg] ∧
    acc'.ttArgs = acc.ttArgs := by
  simp only [fuseStepLeaf] at h
  split at h
  · exact absurd h (by simp)
  · injection h with h
    rw [← h]
    exact ⟨rfl, rfl, rfl⟩

theorem fuseStepNode_post (origRes : EinCore) (acc : FuseAcc) (idx : Nat) (tt : TT)
    (inputs : Option (List Operand)) (inner : TTEinsum) (acc' : FuseAcc)
    (h : fuseStepNode origRes acc idx tt inputs inner = .ok acc') :
    ∃ m ins, inputs = some ins ∧
      relabelOf (ttToVanillaEinsum { type := "", args := acc.ttArgs, res := origRes }) inner
        = .ok m ∧
      acc'.postOps = acc.postOps ++ [.wrapped tt inputs (some (ttApplyMapping inner m))] ∧
      acc'.flatOps = acc.flatOps ++ ins ∧
      inner.type = "independent" := by
  simp only [fuseStepNode] at h
  split at h
  · rename_i htype
    split at h
    · exact absurd h (by simp)
    · rename_i m hm
      split at h
      · exact absurd h (by simp)
      · rename_i outerArgK hk
        split at h
        · exact absurd h (by simp)
        · rename_i m2 hm2
          split at h
          · exact absurd h (by simp)
          · rename_i ins
            injection h with h
            exact ⟨m, ins, rfl, hm, by rw [← h], by rw [← h], htype⟩
  · exact absurd h (by simp)

theorem fuseGo_postOps_append (origRes : EinCore) :
    ∀ (args : List Operand) (idx : Nat) (acc acc' : FuseAcc),
      fuseGo origRes args idx acc = .ok acc' →
      ∃ l, acc'.postOps = acc.postOps ++ l := by
  intro args
  induction args with
  | nil =>
    intro idx acc acc' h
    injection h with h
    exact ⟨[], by rw [← h]; simp⟩
  | cons a rest ih =>
    intro idx acc acc' h
    simp only [fuseGo] at h
    split at h
    · exact absurd h (by simp)
    · rename_i acc1 heq
      obtain ⟨l, hl⟩ := ih (idx + 1) acc1 acc' h
      split at heq
      · rename_i tt ins inner
        obtain ⟨m, ins', _, _, hpost, _, _⟩ := fuseStepNode_post origRes acc idx tt ins inner acc1 heq
        exact ⟨_, by rw [hl, hpost, List.append_assoc]⟩
      · obtain ⟨hpost, _, _⟩ := fuseStepLeaf_post acc idx a acc1 heq
        exact ⟨_, by rw [hl, hpost, List.append_assoc]⟩

theorem fuseGo_assert (origRes : EinCore) :
    ∀ (pre : List Operand) (idx : Nat) (acc : FuseAcc) (tt : TT)
      (ins : Option (List Operand)) (inner : TTEinsum) (rest : List Operand),
      (∀ o ∈ pre, o.isLeaf = true) → idx + pre.length ≤ acc.ttArgs.length →
      inner.type ≠ "independent" →
      fuseGo origRes (pre ++ .wrapped tt ins (some inner) :: rest) idx acc =
        .error .assertFailed := by
  intro pre
  induction pre with
  | nil =>
    intro idx acc tt ins inner rest _ _ htype
    simp only [List.nil_append, fuseGo, fuseStepNode, if_neg htype]
  | cons a pre ih =>
    intro idx acc tt ins inner rest hleaf hlen htype
    have hidx : idx < acc.ttArgs.length := by
      have := hlen
      simp at this
      omega
    obtain ⟨c, hc⟩ : ∃ c, acc.ttArgs.get? idx = some c :=
      ⟨_, List.get?_eq_get hidx⟩
    have hlen' : ∀ (acc1 : FuseAcc), acc1.ttArgs = acc.ttArgs →
        idx + 1 + pre.length ≤ acc1.ttArgs.length := by
      intro acc1 heq
      rw [heq]
      have := hlen
      simp at this
      omega
    have htail : ∀ o ∈ pre, o.isLeaf = true := fun o ho => hleaf o (List.mem_cons_of_mem _ ho)
    cases a with
    | plain t =>
      simp only [List.cons_append, fuseGo, fuseStepLeaf, hc]
      exact ih (idx + 1) _ tt ins inner rest htail (hlen' _ rfl) htype
    | wrapped t i e =>
      cases e with
      | none =>
        simp only [List.cons_append, fuseGo, fuseStepLeaf, hc]
        exact ih (idx + 1) _ tt ins inner rest htail (hlen' _ rfl) htype
      | some d =>
        have := hleaf _ (List.mem_cons_self _ _)
        simp [Operand.isLeaf] at this

theorem fuseGo_flat_leaves (origRes : EinCore) :
    ∀ (args : List Operand) (idx : Nat) (acc acc' : FuseAcc),
      (∀ o ∈ acc.flatOps, o.isLeaf = true) →
      (∀ o ∈ args, leafInputsOk o) →
      fuseGo origRes args idx acc = .ok acc' →
      ∀ o ∈ acc'.flatOps, o.isLeaf = true := by
  intro args
  induction args with
  | nil =>
    intro idx acc acc' hacc _ h
    injection h with h
    rw [← h]
    exact hacc
  | cons a rest ih =>
    intro idx acc acc' hacc hinp h
    simp only [fuseGo] at h
    split at h
    · exact absurd h (by simp)
    · rename_i acc1 heq
      have hinprest : ∀ o ∈ rest, leafInputsOk o :=
        fun o ho => hinp o (List.mem_cons_of_mem _ ho)
      have hacc1 : ∀ o ∈ acc1.flatOps, o.isLeaf = true := by
        split at heq
        · rename_i tt ins inner
          obtain ⟨m, ins', hins, _, _, hflat, _⟩ :=
            fuseStepNode_post origRes acc idx tt ins inner acc1 heq
          rw [hflat]
          intro o ho
          rcases List.mem_append.mp ho with ho | ho
          · exact hacc o ho
          · have := hinp _ (List.mem_cons_self _ _)
            rw [hins] at this
            exact this o ho
        · rename_i hnot
          obtain ⟨_, hflat, _⟩ := fuseStepLeaf_post acc idx a acc1 heq
          rw [hflat]
          intro o ho
          rcases List.mem_append.mp ho with ho | ho
          · exact hacc o ho
          · have ha : o = a := List.mem_singleton.mp ho
            subst ha
            cases o with
            | plain t => rfl
            | wrapped t i e =>
              cases e with
              | none => rfl
              | some d => exact ((by assumption : ∀ (tt : TT) (ins : Option (List Operand))
                  (inner : TTEinsum), Operand.wrapped t i (some d) =
                    Operand.wrapped tt ins (some inner) → False) t i d rfl).elim
      exact ih (idx + 1) acc1 acc' hacc1 hinprest h

/-- Claim C9: when `_fuse` meets a provenance node whose recorded
producing descriptor is not of kind `independent` (all earlier operands
being leaves, within the template's arity), it aborts with the assertion
failure — not by inlining the node and not with a typed error. -/
theorem c9_nonindependent_producer_asserts (tte : TTEinsum) (pre : List Operand)
    (tt : TT) (ins : Option (List Operand)) (inner : TTEinsum) (rest : List Operand)
    (hleaf : ∀ o ∈ pre, o.isLeaf = true) (hlen : pre.length ≤ tte.args.length)
    (htype : inner.type ≠ "independent") :
    fuseFull tte (pre ++ .wrapped tt ins (some inner) :: rest) = .error .assertFailed := by
  unfold fuseFull
  rw [fuseGo_assert tte.res pre 0
    { ttArgs := tte.args, res := tte.res, newCores := [],
      flatOps := [], postOps := [], blocks := [], otherCores := [] }
    tt ins inner rest hleaf (by simpa using hlen) htype]

/-- Witness for C9: a node produced by the running `flat_inner` template
makes `_fuse` fail its assertion. -/
theorem c9_assert_witness :
    fuseFull multiplyE [Operand.wrapped (scalarTT 2) (some []) (some flatInnerE)] =
      .error .assertFailed :=
  c9_nonindependent_producer_asserts multiplyE [] (scalarTT 2) (some []) flatInnerE []
    (by intro o ho; simp at ho) (by decide) (by decide)

/-- Claim C8, amended part: when every non-leaf operand's recorded inputs
are themselves leaves — the invariant maintained by the compiled
operations and the `fuse` boundary — the flattened operand list `_fuse`
returns contains only true leaves. -/
theorem c8_flattened_operands_leaves (tte : TTEinsum) (args : List Operand)
    (fl : List Operand) (hinp : ∀ o ∈ args, leafInputsOk o)
    (hfl : fuseFlat tte args = some fl) :
    ∀ o ∈ fl, o.isLeaf = true := by
  unfold fuseFlat at hfl
  split at hfl
  · rename_i r hr
    unfold fuseFull at hr
    split at hr
    · exact absurd hr (by simp)
    · rename_i acc hacc
      injection hr with hr
      injection hfl with hfl
      have hflat : fl = acc.flatOps := by
        rw [← hfl, ← hr]
      rw [hflat]
      exact fuseGo_flat_leaves tte.res args 0 _ acc (by intro o ho; simp at ho) hinp hacc
  · exact absurd hfl (by simp)

/-- Witness for the amended C8: flattening a multiply-produced node with
leaf inputs next to a leaf yields only leaves. -/
theorem c8_flattened_witness :
    fuseFlat multiplyE [c8inner, leafW (scalarTT 5)] =
      some [leafW (scalarTT 2), leafW (scalarTT 3), leafW (scalarTT 5)] ∧
    ∀ o ∈ [leafW (scalarTT 2), leafW (scalarTT 3), leafW (scalarTT 5)], o.isLeaf = true :=
  ⟨by rfl,
   c8_flattened_operands_leaves multiplyE [c8inner, leafW (scalarTT 5)]
     [leafW (scalarTT 2), leafW (scalarTT 3), leafW (scalarTT 5)]
     (by intro o ho
         rcases List.mem_cons.mp ho with rfl | ho
         · intro x hx
           rcases List.mem_cons.mp hx with rfl | hx
           · rfl
           · rw [List.mem_singleton.mp hx]
             rfl
         · rw [List.mem_singleton.mp ho]
           trivial)
     (by rfl)⟩

/-- Claim C4, amended part: `apply_mapping` rewrites the descriptor it is
handed rather than copying it, so after `_fuse` consumes a non-leaf
operand, that operand's recorded descriptor holds the vacant-letter
relabeling of its previous value instead of being unchanged.  (The deep
copy at entry protects only the value `_fuse` uses as the outer template;
in the source the operand's recorded dict is moreover the very object
registered as the producing operation's template, so that object is
relabeled too.) -/
theorem c4_descriptor_relabeled_in_place (tte inner : TTEinsum) (t : TT)
    (ins : Option (List Operand)) (rest : List Operand) (m : Mapping)
    (post : List Operand)
    (hm : relabelOf (ttToVanillaEinsum tte) inner = .ok m)
    (hpost : fusePost tte (.wrapped t ins (some inner) :: rest) = some post) :
    post.head? = some (.wrapped t ins (some (ttApplyMapping inner m))) := by
  unfold fusePost at hpost
  split at hpost
  · rename_i r hr
    unfold fuseFull at hr
    split at hr
    · exact absurd hr (by simp)
    · rename_i acc hacc
      injection hr with hr
      injection hpost with hpost
      simp only [fuseGo] at hacc
      split at hacc
      · exact absurd hacc (by simp)
      · rename_i acc1 heq
        obtain ⟨m', ins', hins, hm', hpost1, _, _⟩ :=
          fuseStepNode_post tte.res _ 0 t ins inner acc1 heq
        have hmm : m' = m := by
          have : relabelOf (ttToVanillaEinsum tte) inner = .ok m' := hm'
          rw [hm] at this
          injection this with this
          exact this.symm
        obtain ⟨l, hl⟩ := fuseGo_postOps_append tte.res rest 1 acc1 acc hacc
        have : post = acc.postOps := by rw [← hpost, ← hr]
        rw [this, hl, hpost1, hmm]
        simp
  · exact absurd hpost (by simp)

/-- Witness for the amended C4: fusing the multiply-produced node `c4w`
into `multiplyE` rewrites its recorded descriptor to the relabeled value. -/
theorem c4_relabeled_witness :
    ∃ m post, relabelOf (ttToVanillaEinsum multiplyE) multiplyE = .ok m ∧
      fusePost multiplyE [c4w] = some post ∧
      post.head? = some (.wrapped (scalarTT 2)
        (some [leafW (scalarTT 2), leafW (scalarTT 3)]) (some (ttApplyMapping multiplyE m))) := by
  refine ⟨(relabelOf (ttToVanillaEinsum multiplyE) multiplyE).toOption.getD [],
          (fusePost multiplyE [c4w]).getD [], by decide, by rfl, ?_⟩
  exact c4_descriptor_relabeled_in_place multiplyE multiplyE (scalarTT 2)
    (some [leafW (scalarTT 2), leafW (scalarTT 3)]) [] _ _ (by decide) (by rfl)

/-! Lemmas about the independent evaluator's loop. -/

theorem indepGo_length (eA : List (List Char)) (eR : List Char) (ops : List Operand)
    (nbd : Nat) (batch : List Nat) (nL nM : Nat) :
    ∀ (n i : Nat) (l : List Tensor),
      indepGo eA eR ops nbd batch nL nM i n = .ok l → l.length = n := by
  intro n
  induction n with
  | zero =>
    intro i l h
    injection h with h
    rw [← h]
    rfl
  | succ n ih =>
    intro i l h
    simp only [indepGo] at h
    split at h
    · exact absurd h (by simp)
    · rename_i c hc
      split at h
      · exact absurd h (by simp)
      · rename_i cs hcs
        injection h with h
        rw [← h]
        simp [ih _ _ hcs]

/-- Unfolding of the independent evaluator in the unfused case. -/
theorem compileIndependentFull_plain (tte : TTEinsum) (a : Operand) (args' : List Operand)
    (hfuse : (a :: args').any Operand.isWrapped = false) :
    compileIndependentFull tte (a :: args') =
      (match tte.res with
       | r0 :: r1 :: _ =>
         match indepGo (tte.args.map coreJoin) (coreJoin tte.res) (a :: args')
             a.num_batch_dims a.batch_shape r0.length r1.length 0 a.tt_cores.length with
         | .error e => .error e
         | .ok cs => .ok (.plain (TT.mk cs), a :: args')
       | _ => .error .indexError) := by
  simp only [compileIndependentFull, hfuse]
  rfl

/-- Claim C5, amended part: the independent evaluator performs no
chain-length validation at all — whenever an unfused call succeeds its
result chain has exactly the first operand's number of cores, the other
operands' extra cores being silently ignored. -/
theorem c5_truncates_to_first_operand (tte : TTEinsum) (args : List Operand)
    (res : Operand) (post : List Operand)
    (hplain : ∀ o ∈ args, o.isWrapped = false)
    (hok : compileIndependentFull tte args = .ok (res, post)) :
    res.theTT.tt_cores.length = (args.headD defaultOperand).tt_cores.length := by
  have hfuse : args.any Operand.isWrapped = false :=
    List.any_eq_false.mpr (fun x hx => by rw [hplain x hx]; simp)
  cases args with
  | nil => simp [compileIndependentFull] at hok
  | cons a args' =>
    rw [compileIndependentFull_plain tte a args' hfuse] at hok
    split at hok
    · rename_i r0 r1 rs
      split at hok
      · exact absurd hok (by simp)
      · rename_i cs hcs
        injection hok with hpair
        injection hpair with h1 h2
        rw [← h1]
        simpa using indepGo_length _ _ _ _ _ _ _ _ _ _ hcs
    · exact absurd hok (by simp)

/-- Witness for the amended C5: the mismatched call (one core vs. two)
succeeds and its result has the first operand's single core. -/
theorem c5_truncation_witness :
    (Operand.plain (scalarTT 6)).theTT.tt_cores.length =
      ([Operand.plain (scalarTT 2), Operand.plain twoCoreTT].headD defaultOperand).tt_cores.length :=
  c5_truncates_to_first_operand multiplyE [.plain (scalarTT 2), .plain twoCoreTT]
    (.plain (scalarTT 6)) [.plain (scalarTT 2), .plain twoCoreTT]
    (by intro o ho
        rcases List.mem_cons.mp ho with rfl | ho
        · rfl
        · rw [List.mem_singleton.mp ho]
          rfl)
    (by rfl)

end TTAX
